import Mathlib

/-!
Shallow embedding of the rust-os early-boot diagnostic layer:
the VGA text-buffer writer (`src/vga_buffer.rs`), the QEMU test
harness and exit protocol (`src/main.rs`), and the double-fault
test handler (`tests/stack_overflow.rs`).

Rust array indexing `buffer.chars[row][col]` panics when out of
bounds; the embedding makes every such access fallible, returning
`Option`.  A `none` result corresponds to a Rust panic.
-/

namespace RustOS

abbrev BUFFER_HEIGHT : Nat := 25
abbrev BUFFER_WIDTH : Nat := 80

/-- Embeds the `Colour` enum of `src/vga_buffer.rs` with its `repr(u8)` values. -/
inductive Colour
  | Black | Blue | Green | Cyan | Red | Magenta | Brown | LightGrey
  | DarkGrey | LightBlue | LightGreen | LightCyan | LightRed | Pink | Yellow | White
deriving DecidableEq

def Colour.toNat : Colour → Nat
  | .Black => 0 | .Blue => 1 | .Green => 2 | .Cyan => 3
  | .Red => 4 | .Magenta => 5 | .Brown => 6 | .LightGrey => 7
  | .DarkGrey => 8 | .LightBlue => 9 | .LightGreen => 10 | .LightCyan => 11
  | .LightRed => 12 | .Pink => 13 | .Yellow => 14 | .White => 15

/-- Embeds `ColourCode`, a packed 8-bit colour attribute. -/
structure ColourCode where
  code : Nat
deriving DecidableEq

/-- Embeds `ColourCode::new`: `(background as u8) << 4 | (foreground as u8)`. -/
def ColourCode.new (foreground background : Colour) : ColourCode :=
  ⟨Nat.lor (Nat.shiftLeft background.toNat 4) foreground.toNat⟩

/-- Embeds `ScreenChar`: one character cell, an ASCII byte paired with a colour attribute. -/
structure ScreenChar where
  ascii_char : Nat
  colour_code : ColourCode
deriving DecidableEq

/-- Embeds the VGA `Buffer`: a `BUFFER_HEIGHT × BUFFER_WIDTH` grid of cells,
modelled as a list of rows, each row a list of cells. -/
abbrev VBuffer := List (List ScreenChar)

/-- Well-formedness of the grid: exactly `BUFFER_HEIGHT` rows of
`BUFFER_WIDTH` cells each.  In Rust this is enforced by the fixed array
type `[[Volatile<ScreenChar>; BUFFER_WIDTH]; BUFFER_HEIGHT]`. -/
def WF (b : VBuffer) : Prop :=
  b.length = BUFFER_HEIGHT ∧ ∀ r ∈ b, r.length = BUFFER_WIDTH

instance (b : VBuffer) : Decidable (WF b) := by
  unfold WF; exact inferInstance

/-- Embeds the volatile read `self.buffer.chars[row][col].read()`.
Out-of-bounds indexing is a Rust panic, i.e. `none`. -/
def readCell (b : VBuffer) (row col : Nat) : Option ScreenChar :=
  b[row]?.bind fun r => r[col]?

/-- Embeds the volatile write `self.buffer.chars[row][col].write(c)`.
Out-of-bounds indexing is a Rust panic, i.e. `none`. -/
def writeCell (b : VBuffer) (row col : Nat) (c : ScreenChar) : Option VBuffer :=
  match b[row]? with
  | none => none
  | some r => if col < r.length then some (b.set row (r.set col c)) else none

/-- Runs a fallible loop body over the listed loop indices, threading the
state; stops with `none` as soon as the body fails (models a Rust `for`
loop whose body can panic). -/
def optFold (f : α → β → Option α) : α → List β → Option α
  | a, [] => some a
  | a, x :: xs =>
    match f a x with
    | none => none
    | some a2 => optFold f a2 xs

/-- Embeds the `Writer` struct: cursor column, current colour attribute,
and the character grid. -/
structure Writer where
  cursor_column : Nat
  colour_code : ColourCode
  buffer : VBuffer
deriving DecidableEq

/-- Embeds `Writer::clear_row`: writes the blank cell
`(b' ', self.colour_code)` into every column of `row`. -/
def Writer.clear_row (w : Writer) (row : Nat) : Option Writer :=
  let blank : ScreenChar := ⟨0x20, w.colour_code⟩
  (optFold (fun b col => writeCell b row col blank) w.buffer
      (List.range BUFFER_WIDTH)).map
    fun buf => { w with buffer := buf }

/-- Embeds `Writer::new_line`: for every `row` in `1..BUFFER_HEIGHT` and
`col` in `0..BUFFER_WIDTH`, copies the cell at `(row, col)` up to
`(row - 1, col)`; then clears the last row and resets the cursor column. -/
def Writer.new_line (w : Writer) : Option Writer :=
  (optFold
      (fun b row =>
        optFold
          (fun b2 col =>
            (readCell b2 row col).bind fun c => writeCell b2 (row - 1) col c)
          b (List.range BUFFER_WIDTH))
      w.buffer (List.range' 1 (BUFFER_HEIGHT - 1))).bind
    fun buf =>
      (Writer.clear_row { w with buffer := buf } (BUFFER_HEIGHT - 1)).map
        fun w2 => { w2 with cursor_column := 0 }

/-- Embeds `Writer::write_byte`: a newline byte triggers `new_line`;
otherwise, if the cursor column has reached `BUFFER_WIDTH`, `new_line`
runs first, and then the cell `(byte, colour_code)` is written into the
last row at the cursor column and the cursor advances. -/
def Writer.write_byte (w : Writer) (byte : Nat) : Option Writer :=
  if byte = 0x0A then w.new_line
  else
    (if BUFFER_WIDTH ≤ w.cursor_column then w.new_line else some w).bind
      fun w1 =>
        let row := BUFFER_HEIGHT - 1
        let col := w1.cursor_column
        (writeCell w1.buffer row col ⟨byte, w1.colour_code⟩).map
          fun buf => { w1 with buffer := buf, cursor_column := w1.cursor_column + 1 }

/-- Tests whether a byte is passed through unchanged by
`Writer::write_string`: the match arm `0x20..=0x7E | b'\n'`. -/
def printable (byte : Nat) : Prop := (0x20 ≤ byte ∧ byte ≤ 0x7E) ∨ byte = 0x0A

instance (byte : Nat) : Decidable (printable byte) := by
  unfold printable; exact inferInstance

/-- Embeds `Writer::write_string`: each byte in `0x20..=0x7E` or equal to
`b'\n'` goes to `write_byte` unchanged; every other byte is replaced by
the placeholder glyph `0xFE`. -/
def Writer.write_string (w : Writer) (s : List Nat) : Option Writer :=
  optFold
    (fun w2 byte =>
      if printable byte then w2.write_byte byte else w2.write_byte 0xFE)
    w s

/-- Applies `write_byte b'\n'` to the writer `n` times in sequence. -/
def iterate_newlines (w : Writer) : Nat → Option Writer
  | 0 => some w
  | n + 1 => (w.write_byte 0x0A).bind fun w2 => iterate_newlines w2 n

/-- One public operation on the writer: a single `write_byte` call or a
`write_string` call. -/
inductive WriterOp
  | wbyte (b : Nat)
  | wstr (s : List Nat)

/-- Applies one writer operation. -/
def applyOp (w : Writer) : WriterOp → Option Writer
  | .wbyte b => w.write_byte b
  | .wstr s => w.write_string s

/-- Applies a sequence of writer operations. -/
def applyOps : Writer → List WriterOp → Option Writer
  | w, [] => some w
  | w, op :: ops => (applyOp w op).bind fun w2 => applyOps w2 ops

/-- Embeds `QemuExitCode` of `src/main.rs`, `repr(u32)`. -/
inductive QemuExitCode
  | Success
  | Failed
deriving DecidableEq

/-- Embeds the `repr(u32)` discriminant values: `Success = 0x10`, `Failed = 0x11`. -/
def QemuExitCode.toU32 : QemuExitCode → Nat
  | .Success => 0x10
  | .Failed => 0x11

/-- Observable events of the harness: a serial message tag. -/
inductive SerialMsg
  | runningTests (n : Nat)
  | failed
  | errorInfo
  | ok
deriving DecidableEq

/-- Observable events of the harness and handlers: running one check,
emitting a serial message, writing a value to an I/O port, or entering
the terminal `loop {}` (control never proceeds past a `hang`). -/
inductive Event
  | run_check (idx : Nat)
  | serial (m : SerialMsg)
  | port_write (port val : Nat)
  | hang
deriving DecidableEq

/-- Embeds `exit_qemu`: writes the exit code, as a 32-bit value, to the
fixed I/O port `0xF4`. -/
def exit_qemu (exit_code : QemuExitCode) : Event :=
  .port_write 0xF4 exit_code.toU32

/-- Embeds the `cfg(test)` panic handler of `src/main.rs`: prints
`[failed]` and the panic info on serial, writes the failure exit code,
then loops forever. -/
def panic_handler_events : List Event :=
  [.serial .failed, .serial .errorInfo, exit_qemu .Failed, .hang]

/-- Runs the checks of `test_runner` in order starting at index `idx`;
a check is modelled by a `Bool`: `true` when it returns normally,
`false` when it panics (diverting control to the panic handler, after
which no further check runs). -/
def run_checks (idx : Nat) : List Bool → List Event
  | [] => [exit_qemu .Success]
  | t :: ts =>
    .run_check idx :: (if t then run_checks (idx + 1) ts else panic_handler_events)

/-- Embeds `test_runner` of `src/main.rs`: prints the test count on
serial, executes the checks in order, and on completion of all of them
writes the success exit code. -/
def test_runner (tests : List Bool) : List Event :=
  .serial (.runningTests tests.length) :: run_checks 0 tests

/-- Embeds `test_double_fault_handler` of `tests/stack_overflow.rs`: a
non-returning (`-> !`) handler that prints `[ok]` on serial, writes the
success exit code, and then loops forever. -/
def test_double_fault_handler_events : List Event :=
  [.serial .ok, exit_qemu .Success, .hang]

/-- Selects the port writes out of an event trace. -/
def portWrites (events : List Event) : List Event :=
  events.filter fun e =>
    match e with
    | .port_write _ _ => true
    | _ => false

/-- Primitive steps of the synchronized-writer access paths:
the interrupt mask bracket of `without_interrupts`, the spin-lock
acquire/release of `WRITER.lock()`, and the formatted write between them. -/
inductive SyncAction
  | disable_interrupts
  | restore_interrupts
  | acquire_lock
  | release_lock
  | write_output
deriving DecidableEq

/-- Embeds `_print` of `src/vga_buffer.rs`:
`without_interrupts(|| WRITER.lock().write_fmt(args).unwrap())` first
disables interrupts, then takes the writer lock, performs the write,
drops the lock guard, and finally restores the interrupt flag. -/
def print_actions : List SyncAction :=
  [.disable_interrupts, .acquire_lock, .write_output, .release_lock, .restore_interrupts]

/-- Embeds the writer access of the `cfg(not(test))` panic handler of
`src/main.rs`: `println!("{}", info)` expands to a `_print` call, so the
panic-reporting path performs exactly the `_print` action sequence. -/
def panic_vga_actions : List SyncAction :=
  print_actions

/-- State observed by the interrupt-masking model: whether hardware
interrupts are currently enabled and whether the writer lock is held. -/
structure SyncState where
  interrupts_enabled : Bool
  lock_held : Bool
deriving DecidableEq

/-- Effect of one primitive step on the interrupt/lock state. -/
def stepAction (s : SyncState) : SyncAction → SyncState
  | .disable_interrupts => { s with interrupts_enabled := false }
  | .restore_interrupts => { s with interrupts_enabled := true }
  | .acquire_lock => { s with lock_held := true }
  | .release_lock => { s with lock_held := false }
  | .write_output => s

/-- Every state visited while executing the action sequence from `s`,
including the initial and final states. -/
def statesFrom (s : SyncState) : List SyncAction → List SyncState
  | [] => [s]
  | a :: rest => s :: statesFrom (stepAction s a) rest

/-- Initial state of normal execution: interrupts enabled, lock free. -/
def initSync : SyncState :=
  ⟨true, false⟩

/-- Concrete writer used to instantiate the theorems: cursor at column 0,
white-on-black attribute, all cells blank — the state the static `WRITER`
would have over a blank VGA buffer. -/
def testWriter : Writer :=
  { cursor_column := 0,
    colour_code := ColourCode.new .White .Black,
    buffer :=
      List.replicate BUFFER_HEIGHT
        (List.replicate BUFFER_WIDTH ⟨0x20, ColourCode.new .White .Black⟩) }

/-- Concrete writer whose cursor has reached the rightmost column. -/
def testWriterFull : Writer :=
  { testWriter with cursor_column := BUFFER_WIDTH }

/-! Helper lemmas about the grid primitives. -/

theorem WF_row {b : VBuffer} (h : WF b) {row : Nat} (hr : row < BUFFER_HEIGHT) :
    ∃ r, b[row]? = some r ∧ r.length = BUFFER_WIDTH := by
  obtain ⟨hlen, hrows⟩ := h
  have hlt : row < b.length := by omega
  exact ⟨b[row], List.getElem?_eq_getElem hlt, hrows _ (List.getElem_mem hlt)⟩

theorem readCell_isSome {b : VBuffer} (h : WF b) {row col : Nat}
    (hr : row < BUFFER_HEIGHT) (hc : col < BUFFER_WIDTH) :
    ∃ ch, readCell b row col = some ch := by
  obtain ⟨r, hrow, hlen⟩ := WF_row h hr
  have hc2 : col < r.length := by omega
  exact ⟨r[col], by simp [readCell, hrow, List.getElem?_eq_getElem hc2]⟩

theorem readCell_none_of_row_ge {b : VBuffer} (h : WF b) {row : Nat}
    (hr : BUFFER_HEIGHT ≤ row) (col : Nat) : readCell b row col = none := by
  have : b[row]? = none := List.getElem?_eq_none (by rw [h.1]; omega)
  simp [readCell, this]

theorem readCell_none_of_col_ge {b : VBuffer} (h : WF b) {col : Nat}
    (hc : BUFFER_WIDTH ≤ col) (row : Nat) : readCell b row col = none := by
  rcases Nat.lt_or_ge row BUFFER_HEIGHT with hr | hr
  · obtain ⟨r, hrow, hlen⟩ := WF_row h hr
    have : r[col]? = none := List.getElem?_eq_none (by rw [hlen]; omega)
    simp [readCell, hrow, this]
  · exact readCell_none_of_row_ge h hr col

theorem writeCell_spec {b : VBuffer} (h : WF b) {row col : Nat}
    (hr : row < BUFFER_HEIGHT) (hc : col < BUFFER_WIDTH) (c : ScreenChar) :
    ∃ b2, writeCell b row col c = some b2 ∧ WF b2 ∧
      ∀ r2 c2, readCell b2 r2 c2 =
        if row = r2 ∧ col = c2 then some c else readCell b r2 c2 := by
  obtain ⟨r, hrow, hlen⟩ := WF_row h hr
  have hc2 : col < r.length := by omega
  refine ⟨b.set row (r.set col c), by simp [writeCell, hrow, hc2], ?_, ?_⟩
  · refine ⟨by simp [h.1], ?_⟩
    intro r2 hr2
    rcases List.mem_or_eq_of_mem_set hr2 with h2 | h2
    · exact h.2 r2 h2
    · subst h2; simp [hlen]
  · intro r2 c2
    by_cases hrr : row = r2
    · subst hrr
      have hbl : row < b.length := by rw [h.1]; exact hr
      have hbrow : (b.set row (r.set col c))[row]? = some (r.set col c) :=
        List.getElem?_set_eq_of_lt _ hbl
      by_cases hcc : col = c2
      · subst hcc
        have hread : (r.set col c)[col]? = some c := List.getElem?_set_eq_of_lt _ hc2
        simp [readCell, hbrow, hread]
      · have hread : (r.set col c)[c2]? = r[c2]? := List.getElem?_set_ne hcc
        simp [readCell, hbrow, hrow, hread, hcc]
    · have hbrow : (b.set row (r.set col c))[r2]? = b[r2]? :=
        List.getElem?_set_ne hrr
      simp [readCell, hbrow, hrr]

theorem optFold_append (f : α → β → Option α) (a : α) (l1 l2 : List β) :
    optFold f a (l1 ++ l2) =
      (optFold f a l1).bind fun a2 => optFold f a2 l2 := by
  induction l1 generalizing a with
  | nil => simp [optFold]
  | cons x xs ih =>
    simp only [List.cons_append, optFold]
    cases f a x with
    | none => simp
    | some a2 => simpa using ih a2

theorem optFold_singleton (f : α → β → Option α) (a : α) (x : β) :
    optFold f a [x] = f a x := by
  cases h : f a x <;> simp [optFold, h]

theorem copy_cols_spec {row : Nat} (h1 : 1 ≤ row) (hr : row < BUFFER_HEIGHT)
    (cols : List Nat) (hcols : ∀ c ∈ cols, c < BUFFER_WIDTH) :
    ∀ {b : VBuffer}, WF b →
    ∃ b2,
      optFold
        (fun b3 col => (readCell b3 row col).bind fun ch => writeCell b3 (row - 1) col ch)
        b cols = some b2 ∧ WF b2 ∧
      ∀ r2 c2, readCell b2 r2 c2 =
        if r2 = row - 1 ∧ c2 ∈ cols then readCell b row c2 else readCell b r2 c2 := by
  induction cols with
  | nil => exact fun hb => ⟨_, rfl, hb, by simp⟩
  | cons col rest ih =>
    intro b hb
    have hcol : col < BUFFER_WIDTH := hcols col (by simp)
    obtain ⟨ch, hch⟩ := readCell_isSome hb hr hcol
    obtain ⟨b1, hb1, hwf1, hread1⟩ :=
      writeCell_spec hb (show row - 1 < BUFFER_HEIGHT by omega) hcol ch
    obtain ⟨b2, hb2, hwf2, hread2⟩ := ih (fun c hc => hcols c (by simp [hc])) hwf1
    have hne : row - 1 ≠ row := by omega
    refine ⟨b2, by simp only [optFold, hch, Option.some_bind, hb1]; exact hb2, hwf2, ?_⟩
    intro r2 c2
    by_cases hr2 : r2 = row - 1
    · subst hr2
      by_cases hc2 : c2 ∈ rest
      · rw [hread2, if_pos ⟨rfl, hc2⟩, hread1, if_neg (fun hcon => hne hcon.1),
          if_pos ⟨rfl, List.mem_cons_of_mem _ hc2⟩]
      · by_cases hcc : c2 = col
        · subst hcc
          rw [hread2, if_neg (fun hcon => hc2 hcon.2), hread1, if_pos ⟨rfl, rfl⟩,
            if_pos ⟨rfl, List.mem_cons_self _ _⟩, hch]
        · rw [hread2, if_neg (fun hcon => hc2 hcon.2), hread1,
            if_neg (fun hcon => hcc hcon.2.symm),
            if_neg (fun hcon => by rcases List.mem_cons.1 hcon.2 with h2 | h2 <;> tauto)]
    · rw [hread2, if_neg (fun hcon => hr2 hcon.1), hread1,
        if_neg (fun hcon => hr2 hcon.1.symm), if_neg (fun hcon => hr2 hcon.1)]

theorem clear_cols_spec {row : Nat} (hr : row < BUFFER_HEIGHT) (blank : ScreenChar)
    (cols : List Nat) (hcols : ∀ c ∈ cols, c < BUFFER_WIDTH) :
    ∀ {b : VBuffer}, WF b →
    ∃ b2,
      optFold (fun b3 col => writeCell b3 row col blank) b cols = some b2 ∧ WF b2 ∧
      ∀ r2 c2, readCell b2 r2 c2 =
        if r2 = row ∧ c2 ∈ cols then some blank else readCell b r2 c2 := by
  induction cols with
  | nil => exact fun hb => ⟨_, rfl, hb, by simp⟩
  | cons col rest ih =>
    intro b hb
    have hcol : col < BUFFER_WIDTH := hcols col (by simp)
    obtain ⟨b1, hb1, hwf1, hread1⟩ := writeCell_spec hb hr hcol blank
    obtain ⟨b2, hb2, hwf2, hread2⟩ := ih (fun c hc => hcols c (by simp [hc])) hwf1
    refine ⟨b2, by simp only [optFold, hb1]; exact hb2, hwf2, ?_⟩
    intro r2 c2
    by_cases hr2 : r2 = row
    · subst hr2
      by_cases hc2 : c2 ∈ rest
      · rw [hread2, if_pos ⟨rfl, hc2⟩, if_pos ⟨rfl, List.mem_cons_of_mem _ hc2⟩]
      · by_cases hcc : c2 = col
        · subst hcc
          rw [hread2, if_neg (fun hcon => hc2 hcon.2), hread1, if_pos ⟨rfl, rfl⟩,
            if_pos ⟨rfl, List.mem_cons_self _ _⟩]
        · rw [hread2, if_neg (fun hcon => hc2 hcon.2), hread1,
            if_neg (fun hcon => hcc hcon.2.symm),
            if_neg (fun hcon => by rcases List.mem_cons.1 hcon.2 with h2 | h2 <;> tauto)]
    · rw [hread2, if_neg (fun hcon => hr2 hcon.1), hread1,
        if_neg (fun hcon => hr2 hcon.1.symm), if_neg (fun hcon => hr2 hcon.1)]

theorem copy_rows_spec (k : Nat) (hk : k ≤ BUFFER_HEIGHT - 1) {b : VBuffer} (hb : WF b) :
    ∃ b2,
      optFold
        (fun b3 row =>
          optFold
            (fun b4 col => (readCell b4 row col).bind fun ch => writeCell b4 (row - 1) col ch)
            b3 (List.range BUFFER_WIDTH))
        b (List.range' 1 k) = some b2 ∧ WF b2 ∧
      ∀ r2 c2, readCell b2 r2 c2 =
        if r2 < k ∧ c2 < BUFFER_WIDTH then readCell b (r2 + 1) c2 else readCell b r2 c2 := by
  induction k with
  | zero => exact ⟨b, rfl, hb, by simp⟩
  | succ k ih =>
    obtain ⟨bk, hbk, hwfk, hreadk⟩ := ih (by omega)
    have hrow : 1 + k < BUFFER_HEIGHT := by omega
    obtain ⟨b2, hb2, hwf2, hread2⟩ :=
      copy_cols_spec (show 1 ≤ 1 + k by omega) hrow (List.range BUFFER_WIDTH)
        (fun c hc => List.mem_range.1 hc) hwfk
    have e1 : 1 + k - 1 = k := by omega
    rw [e1] at hread2
    refine ⟨b2, ?_, hwf2, ?_⟩
    · rw [List.range'_concat, optFold_append, hbk]
      simp only [Option.some_bind, optFold_singleton, Nat.one_mul]
      simpa using hb2
    · intro r2 c2
      by_cases hc2 : c2 < BUFFER_WIDTH
      · by_cases hr2 : r2 = k
        · subst hr2
          rw [hread2, if_pos ⟨rfl, List.mem_range.2 hc2⟩, hreadk,
            if_neg (fun hcon => by omega), if_pos ⟨by omega, hc2⟩]
          have e2 : 1 + r2 = r2 + 1 := by omega
          rw [e2]
        · by_cases hrk : r2 < k
          · rw [hread2, if_neg (fun hcon => hr2 hcon.1), hreadk, if_pos ⟨hrk, hc2⟩,
              if_pos ⟨by omega, hc2⟩]
          · rw [hread2, if_neg (fun hcon => hr2 hcon.1), hreadk,
              if_neg (fun hcon => hrk hcon.1), if_neg (fun hcon => by omega)]
      · rw [hread2, if_neg (fun hcon => hc2 (List.mem_range.1 hcon.2)), hreadk,
          if_neg (fun hcon => hc2 hcon.2), if_neg (fun hcon => hc2 hcon.2)]

theorem clear_row_spec (w : Writer) (hb : WF w.buffer) {row : Nat}
    (hr : row < BUFFER_HEIGHT) :
    ∃ w2, w.clear_row row = some w2 ∧ WF w2.buffer ∧
      w2.cursor_column = w.cursor_column ∧ w2.colour_code = w.colour_code ∧
      ∀ r2 c2, readCell w2.buffer r2 c2 =
        if r2 = row ∧ c2 < BUFFER_WIDTH then some ⟨0x20, w.colour_code⟩
        else readCell w.buffer r2 c2 := by
  obtain ⟨b2, hb2, hwf2, hread2⟩ :=
    clear_cols_spec hr ⟨0x20, w.colour_code⟩ (List.range BUFFER_WIDTH)
      (fun c hc => List.mem_range.1 hc) hb
  refine ⟨{ w with buffer := b2 }, ?_, hwf2, rfl, rfl, ?_⟩
  · simp only [Writer.clear_row, hb2]
    rfl
  · intro r2 c2
    rw [hread2]
    by_cases hc2 : c2 < BUFFER_WIDTH
    · by_cases hr2 : r2 = row
      · subst hr2; rw [if_pos ⟨rfl, List.mem_range.2 hc2⟩, if_pos ⟨rfl, hc2⟩]
      · rw [if_neg (fun hcon => hr2 hcon.1), if_neg (fun hcon => hr2 hcon.1)]
    · rw [if_neg (fun hcon => hc2 (List.mem_range.1 hcon.2)),
        if_neg (fun hcon => hc2 hcon.2)]

theorem new_line_spec (w : Writer) (hb : WF w.buffer) :
    ∃ w2, w.new_line = some w2 ∧ WF w2.buffer ∧
      w2.cursor_column = 0 ∧ w2.colour_code = w.colour_code ∧
      (∀ r c, r + 1 < BUFFER_HEIGHT → c < BUFFER_WIDTH →
        readCell w2.buffer r c = readCell w.buffer (r + 1) c) ∧
      (∀ c, c < BUFFER_WIDTH →
        readCell w2.buffer (BUFFER_HEIGHT - 1) c = some ⟨0x20, w.colour_code⟩) := by
  obtain ⟨b2, hb2, hwf2, hread2⟩ := copy_rows_spec (BUFFER_HEIGHT - 1) (by omega) hb
  obtain ⟨w3, hw3, hwf3, hcur3, hcol3, hread3⟩ :=
    clear_row_spec { w with buffer := b2 } hwf2
      (show BUFFER_HEIGHT - 1 < BUFFER_HEIGHT by decide)
  refine ⟨{ w3 with cursor_column := 0 }, ?_, hwf3, rfl, hcol3, ?_, ?_⟩
  · simp only [Writer.new_line, hb2, Option.some_bind, hw3]
    rfl
  · intro r c hr hc
    have hread3' := hread3 r c
    rw [if_neg (fun hcon => by omega)] at hread3'
    show readCell w3.buffer r c = _
    rw [hread3', hread2, if_pos ⟨by omega, hc⟩]
  · intro c hc
    have hread3' := hread3 (BUFFER_HEIGHT - 1) c
    rw [if_pos ⟨rfl, hc⟩] at hread3'
    exact hread3'

theorem write_byte_spec (w : Writer) (hb : WF w.buffer) (byte : Nat) (hnb : byte ≠ 0x0A)
    (hc : w.cursor_column < BUFFER_WIDTH) :
    ∃ w2, w.write_byte byte = some w2 ∧ WF w2.buffer ∧
      w2.cursor_column = w.cursor_column + 1 ∧ w2.colour_code = w.colour_code ∧
      ∀ r c, readCell w2.buffer r c =
        if r = BUFFER_HEIGHT - 1 ∧ c = w.cursor_column then some ⟨byte, w.colour_code⟩
        else readCell w.buffer r c := by
  obtain ⟨b2, hb2, hwf2, hread2⟩ :=
    writeCell_spec hb (show BUFFER_HEIGHT - 1 < BUFFER_HEIGHT by decide) hc
      ⟨byte, w.colour_code⟩
  refine ⟨{ w with buffer := b2, cursor_column := w.cursor_column + 1 }, ?_, hwf2, rfl, rfl, ?_⟩
  · simp only [Writer.write_byte, if_neg hnb,
      if_neg (show ¬ BUFFER_WIDTH ≤ w.cursor_column by omega), Option.some_bind, hb2]
    rfl
  · intro r c
    rw [hread2]
    by_cases hcon : r = BUFFER_HEIGHT - 1 ∧ c = w.cursor_column
    · rw [if_pos ⟨hcon.1.symm, hcon.2.symm⟩, if_pos hcon]
    · rw [if_neg (fun h2 => hcon ⟨h2.1.symm, h2.2.symm⟩), if_neg hcon]

theorem write_byte_newline (w : Writer) : w.write_byte 0x0A = w.new_line := by
  simp [Writer.write_byte]

theorem write_byte_wrap (w : Writer) (hb : WF w.buffer) (byte : Nat) (hnb : byte ≠ 0x0A)
    (hc : BUFFER_WIDTH ≤ w.cursor_column) :
    ∃ w1, w.new_line = some w1 ∧ w1.cursor_column = 0 ∧
      w.write_byte byte = w1.write_byte byte := by
  obtain ⟨w1, hw1, hwf1, hcur1, hcol1, _⟩ := new_line_spec w hb
  refine ⟨w1, hw1, hcur1, ?_⟩
  simp only [Writer.write_byte, if_neg hnb, if_pos hc, hw1, Option.some_bind,
    if_neg (show ¬ BUFFER_WIDTH ≤ w1.cursor_column by rw [hcur1]; decide)]

theorem write_byte_total (w : Writer) (hb : WF w.buffer) (byte : Nat) :
    ∃ w2, w.write_byte byte = some w2 ∧ WF w2.buffer ∧
      w2.cursor_column ≤ BUFFER_WIDTH := by
  by_cases hnb : byte = 0x0A
  · subst hnb
    obtain ⟨w2, hw2, hwf2, hcur2, _⟩ := new_line_spec w hb
    exact ⟨w2, by rw [write_byte_newline, hw2], hwf2, by rw [hcur2]; decide⟩
  · by_cases hc : BUFFER_WIDTH ≤ w.cursor_column
    · obtain ⟨w1, hw1, hcur1, heq⟩ := write_byte_wrap w hb byte hnb hc
      obtain ⟨w1b, hw1b, hwf1, _, _, _⟩ := new_line_spec w hb
      rw [hw1] at hw1b
      obtain rfl : w1 = w1b := by injection hw1b
      obtain ⟨w2, hw2, hwf2, hcur2, _, _⟩ :=
        write_byte_spec w1 hwf1 byte hnb (by rw [hcur1]; decide)
      exact ⟨w2, by rw [heq, hw2], hwf2, by rw [hcur2, hcur1]; decide⟩
    · obtain ⟨w2, hw2, hwf2, hcur2, _, _⟩ := write_byte_spec w hb byte hnb (by omega)
      exact ⟨w2, hw2, hwf2, by rw [hcur2]; omega⟩

theorem write_string_total (s : List Nat) : ∀ (w : Writer), WF w.buffer →
    ∃ w2, w.write_string s = some w2 ∧ WF w2.buffer ∧
      (w.cursor_column ≤ BUFFER_WIDTH → w2.cursor_column ≤ BUFFER_WIDTH) := by
  induction s with
  | nil => exact fun w hb => ⟨w, rfl, hb, fun h => h⟩
  | cons byte rest ih =>
    intro w hb
    by_cases hp : printable byte
    · obtain ⟨w1, hw1, hwf1, hcur1⟩ := write_byte_total w hb byte
      obtain ⟨w2, hw2, hwf2, hcur2⟩ := ih w1 hwf1
      refine ⟨w2, ?_, hwf2, fun _ => hcur2 hcur1⟩
      simp only [Writer.write_string, optFold, if_pos hp, hw1]
      exact hw2
    · obtain ⟨w1, hw1, hwf1, hcur1⟩ := write_byte_total w hb 0xFE
      obtain ⟨w2, hw2, hwf2, hcur2⟩ := ih w1 hwf1
      refine ⟨w2, ?_, hwf2, fun _ => hcur2 hcur1⟩
      simp only [Writer.write_string, optFold, if_neg hp, hw1]
      exact hw2

theorem write_string_eq_filtered (s : List Nat) : ∀ w : Writer,
    w.write_string s =
      optFold Writer.write_byte w (s.map fun b => if printable b then b else 0xFE) := by
  induction s with
  | nil => exact fun w => rfl
  | cons byte rest ih =>
    intro w
    by_cases hp : printable byte
    · simp only [Writer.write_string, List.map_cons, optFold, if_pos hp]
      cases hwb : w.write_byte byte with
      | none => rfl
      | some w1 => exact ih w1
    · simp only [Writer.write_string, List.map_cons, optFold, if_neg hp]
      cases hwb : w.write_byte 0xFE with
      | none => rfl
      | some w1 => exact ih w1

theorem write_string_printable_aux (s : List Nat) : ∀ (w : Writer), WF w.buffer →
    (∀ b ∈ s, 0x20 ≤ b ∧ b ≤ 0x7E) →
    w.cursor_column + s.length ≤ BUFFER_WIDTH →
    ∃ w2, w.write_string s = some w2 ∧ WF w2.buffer ∧
      w2.cursor_column = w.cursor_column + s.length ∧
      w2.colour_code = w.colour_code ∧
      (∀ i, i < s.length →
        readCell w2.buffer (BUFFER_HEIGHT - 1) (w.cursor_column + i) =
          some ⟨s.getD i 0, w.colour_code⟩) ∧
      (∀ r c, (r = BUFFER_HEIGHT - 1 → c < w.cursor_column ∨ w.cursor_column + s.length ≤ c) →
        readCell w2.buffer r c = readCell w.buffer r c) := by
  induction s with
  | nil =>
    intro w hb _ _
    exact ⟨w, rfl, hb, rfl, rfl, fun i hi => absurd hi (by simp), fun r c _ => rfl⟩
  | cons byte rest ih =>
    intro w hb hprint hlen
    obtain ⟨hlo, hhi⟩ := hprint byte (by simp)
    have hp : printable byte := Or.inl ⟨hlo, hhi⟩
    have hnb : byte ≠ 0x0A := by omega
    have hcur : w.cursor_column < BUFFER_WIDTH := by
      simp only [List.length_cons] at hlen; omega
    obtain ⟨w1, hw1, hwf1, hcur1, hcol1, hread1⟩ := write_byte_spec w hb byte hnb hcur
    obtain ⟨w2, hw2, hwf2, hcur2, hcol2, hcells2, hkeep2⟩ :=
      ih w1 hwf1 (fun b hbm => hprint b (by simp [hbm]))
        (by simp only [List.length_cons] at hlen; omega)
    refine ⟨w2, ?_, hwf2, ?_, ?_, ?_, ?_⟩
    · simp only [Writer.write_string, optFold, if_pos hp, hw1]
      exact hw2
    · rw [hcur2, hcur1]; simp only [List.length_cons]; omega
    · rw [hcol2, hcol1]
    · intro i hi
      match i with
      | 0 =>
        have hkeep := hkeep2 (BUFFER_HEIGHT - 1) w.cursor_column
          (fun _ => Or.inl (by omega))
        rw [Nat.add_zero, hkeep, hread1, if_pos ⟨rfl, rfl⟩]
        simp
      | j + 1 =>
        have hcell := hcells2 j (by simp only [List.length_cons] at hi; omega)
        rw [hcur1, hcol1] at hcell
        have e1 : w.cursor_column + (j + 1) = w.cursor_column + 1 + j := by omega
        rw [e1, hcell]
        simp
    · intro r c hrc
      have hkeep := hkeep2 r c (fun hr => by
        rcases hrc hr with h2 | h2
        · exact Or.inl (by omega)
        · exact Or.inr (by simp only [List.length_cons] at h2 ⊢; omega))
      rw [hkeep, hread1, if_neg (fun hcon => by
        rcases hrc hcon.1 with h2 | h2
        · omega
        · simp only [List.length_cons] at h2; omega)]

/-! Claim theorems. -/

/-- C1: for every string of printable-ASCII bytes (0x20..=0x7E) of length
at most the grid width, `write_string` on a writer whose cursor column is 0
leaves the first `len(s)` cells of the last row holding exactly the bytes
of `s` in order, each paired with the writer's current colour attribute. -/
theorem C1_write_string_printable_readback (s : List Nat) (w : Writer)
    (hwf : WF w.buffer) (hcur : w.cursor_column = 0)
    (hlen : s.length ≤ BUFFER_WIDTH)
    (hprint : ∀ b ∈ s, 0x20 ≤ b ∧ b ≤ 0x7E) :
    ∃ w2, w.write_string s = some w2 ∧
      ∀ i, i < s.length →
        readCell w2.buffer (BUFFER_HEIGHT - 1) i =
          some ⟨s.getD i 0, w.colour_code⟩ := by
  obtain ⟨w2, hw2, _, _, _, hcells, _⟩ :=
    write_string_printable_aux s w hwf hprint (by omega)
  refine ⟨w2, hw2, fun i hi => ?_⟩
  have hcell := hcells i hi
  rwa [hcur, Nat.zero_add] at hcell

/-- C1 witness: writing the two-byte string "Hi" on the blank writer. -/
theorem C1_witness :
    WF testWriter.buffer ∧ testWriter.cursor_column = 0 ∧
    ([0x48, 0x69] : List Nat).length ≤ BUFFER_WIDTH ∧
    ∃ w2, testWriter.write_string [0x48, 0x69] = some w2 ∧
      ∀ i, i < ([0x48, 0x69] : List Nat).length →
        readCell w2.buffer (BUFFER_HEIGHT - 1) i =
          some ⟨([0x48, 0x69] : List Nat).getD i 0, testWriter.colour_code⟩ :=
  ⟨by decide, rfl, by decide,
    C1_write_string_printable_readback [0x48, 0x69] testWriter (by decide) rfl
      (by decide) (by decide)⟩

/-- C2: `write_string` passes every byte in 0x20..=0x7E and the newline
byte 0x0A to `write_byte` unchanged and replaces every other byte with the
placeholder glyph 0xFE before writing; on a well-formed grid it never
fails, whatever the input bytes. -/
theorem C2_write_string_placeholder :
    (∀ (w : Writer) (s : List Nat),
      w.write_string s =
        optFold Writer.write_byte w
          (s.map fun b => if printable b then b else 0xFE)) ∧
    (∀ (w : Writer) (s : List Nat), WF w.buffer →
      ∃ w2, w.write_string s = some w2) := by
  refine ⟨fun w s => write_string_eq_filtered s w, fun w s hb => ?_⟩
  obtain ⟨w2, hw2, _, _⟩ := write_string_total s w hb
  exact ⟨w2, hw2⟩

/-- C2 witness: a string holding a printable byte, a control byte and a
newline; the control byte 0x01 is substituted with 0xFE and the write
succeeds. -/
theorem C2_witness :
    (testWriter.write_string [0x41, 0x01, 0x0A] =
      optFold Writer.write_byte testWriter
        (([0x41, 0x01, 0x0A] : List Nat).map fun b =>
          if printable b then b else 0xFE)) ∧
    (WF testWriter.buffer ∧
      ∃ w2, testWriter.write_string [0x41, 0x01, 0x0A] = some w2) :=
  ⟨C2_write_string_placeholder.1 testWriter [0x41, 0x01, 0x0A],
   by decide, C2_write_string_placeholder.2 testWriter [0x41, 0x01, 0x0A] (by decide)⟩

/-- C3: `write_byte b` performs `new_line` when `b` is the newline byte;
otherwise, when the cursor is strictly inside the row it writes
`(b, colour_code)` into the last row at the cursor column and advances the
cursor, and when the cursor has reached the rightmost column it performs
the scroll-and-reset first and then writes from the reset cursor. -/
theorem C3_write_byte_cases :
    (∀ w : Writer, w.write_byte 0x0A = w.new_line) ∧
    (∀ (w : Writer) (byte : Nat), WF w.buffer → byte ≠ 0x0A →
      w.cursor_column < BUFFER_WIDTH →
      ∃ w2, w.write_byte byte = some w2 ∧
        w2.cursor_column = w.cursor_column + 1 ∧
        readCell w2.buffer (BUFFER_HEIGHT - 1) w.cursor_column =
          some ⟨byte, w.colour_code⟩ ∧
        ∀ r c, ¬(r = BUFFER_HEIGHT - 1 ∧ c = w.cursor_column) →
          readCell w2.buffer r c = readCell w.buffer r c) ∧
    (∀ (w : Writer) (byte : Nat), WF w.buffer → byte ≠ 0x0A →
      BUFFER_WIDTH ≤ w.cursor_column →
      ∃ w1, w.new_line = some w1 ∧ w1.cursor_column = 0 ∧
        w.write_byte byte = w1.write_byte byte) := by
  refine ⟨write_byte_newline, fun w byte hb hnb hc => ?_,
    fun w byte hb hnb hc => write_byte_wrap w hb byte hnb hc⟩
  obtain ⟨w2, hw2, _, hcur2, _, hread2⟩ := write_byte_spec w hb byte hnb hc
  refine ⟨w2, hw2, hcur2, ?_, fun r c hrc => ?_⟩
  · rw [hread2, if_pos ⟨rfl, rfl⟩]
  · rw [hread2, if_neg hrc]

/-- C3 witness: the newline case on the blank writer, a printable byte at
column 0, and a printable byte at the rightmost column. -/
theorem C3_witness :
    (testWriter.write_byte 0x0A = testWriter.new_line) ∧
    (∃ w2, testWriter.write_byte 0x41 = some w2 ∧
      w2.cursor_column = testWriter.cursor_column + 1 ∧
      readCell w2.buffer (BUFFER_HEIGHT - 1) testWriter.cursor_column =
        some ⟨0x41, testWriter.colour_code⟩ ∧
      ∀ r c, ¬(r = BUFFER_HEIGHT - 1 ∧ c = testWriter.cursor_column) →
        readCell w2.buffer r c = readCell testWriter.buffer r c) ∧
    (∃ w1, testWriterFull.new_line = some w1 ∧ w1.cursor_column = 0 ∧
      testWriterFull.write_byte 0x41 = w1.write_byte 0x41) :=
  ⟨C3_write_byte_cases.1 testWriter,
   C3_write_byte_cases.2.1 testWriter 0x41 (by decide) (by decide) (by decide),
   C3_write_byte_cases.2.2 testWriterFull 0x41 (by decide) (by decide) (by decide)⟩

/-- C4: `new_line` copies every row `r` in `[1, height)` into row `r - 1`,
clears the last row to `(space, colour_code)` in all of its columns, and
resets the cursor column to 0; a `write_byte` that does not scroll leaves
every row other than the last unchanged, so only the scroll discards
row 0's content. -/
theorem C4_new_line_scroll :
    (∀ w : Writer, WF w.buffer →
      ∃ w2, w.new_line = some w2 ∧ w2.cursor_column = 0 ∧
        (∀ r c, r + 1 < BUFFER_HEIGHT → c < BUFFER_WIDTH →
          readCell w2.buffer r c = readCell w.buffer (r + 1) c) ∧
        (∀ c, c < BUFFER_WIDTH →
          readCell w2.buffer (BUFFER_HEIGHT - 1) c =
            some ⟨0x20, w.colour_code⟩)) ∧
    (∀ (w : Writer) (byte : Nat) (w2 : Writer), WF w.buffer → byte ≠ 0x0A →
      w.cursor_column < BUFFER_WIDTH → w.write_byte byte = some w2 →
      ∀ r c, r < BUFFER_HEIGHT - 1 →
        readCell w2.buffer r c = readCell w.buffer r c) := by
  constructor
  · intro w hb
    obtain ⟨w2, hw2, _, hcur2, hcol2, hcopy, hclear⟩ := new_line_spec w hb
    exact ⟨w2, hw2, hcur2, hcopy, hclear⟩
  · intro w byte w2 hb hnb hc hw2 r c hr
    obtain ⟨w2b, hw2b, _, _, _, hread2⟩ := write_byte_spec w hb byte hnb hc
    rw [hw2b] at hw2
    obtain rfl : w2 = w2b := by injection hw2.symm
    rw [hread2, if_neg (fun hcon => by omega)]

/-- C4 witness: scrolling the blank writer, and a non-scrolling byte write
on the blank writer. -/
theorem C4_witness :
    (∃ w2, testWriter.new_line = some w2 ∧ w2.cursor_column = 0 ∧
      (∀ r c, r + 1 < BUFFER_HEIGHT → c < BUFFER_WIDTH →
        readCell w2.buffer r c = readCell testWriter.buffer (r + 1) c) ∧
      (∀ c, c < BUFFER_WIDTH →
        readCell w2.buffer (BUFFER_HEIGHT - 1) c =
          some ⟨0x20, testWriter.colour_code⟩)) ∧
    (∃ w2, testWriter.write_byte 0x42 = some w2 ∧
      ∀ r c, r < BUFFER_HEIGHT - 1 →
        readCell w2.buffer r c = readCell testWriter.buffer r c) := by
  refine ⟨C4_new_line_scroll.1 testWriter (by decide), ?_⟩
  obtain ⟨w2, hw2, _, _⟩ := write_byte_total testWriter (by decide) 0x42
  exact ⟨w2, hw2,
    C4_new_line_scroll.2 testWriter 0x42 w2 (by decide) (by decide) (by decide) hw2⟩

theorem write_string_append (w : Writer) (s1 s2 : List Nat) :
    w.write_string (s1 ++ s2) =
      (w.write_string s1).bind fun w1 => w1.write_string s2 :=
  optFold_append _ w s1 s2

/-- C5: a printable-ASCII string longer than the width but at most twice
the width, written from cursor column 0 with no explicit line break,
wraps automatically: its first `width` bytes end up on the row above the
cursor row and the remaining bytes on the cursor row. -/
theorem C5_write_string_wraps (s : List Nat) (w : Writer)
    (hwf : WF w.buffer) (hcur : w.cursor_column = 0)
    (hlen1 : BUFFER_WIDTH < s.length) (hlen2 : s.length ≤ 2 * BUFFER_WIDTH)
    (hprint : ∀ b ∈ s, 0x20 ≤ b ∧ b ≤ 0x7E) :
    ∃ w2, w.write_string s = some w2 ∧
      (∀ i, i < BUFFER_WIDTH →
        readCell w2.buffer (BUFFER_HEIGHT - 2) i =
          some ⟨s.getD i 0, w.colour_code⟩) ∧
      (∀ i, BUFFER_WIDTH ≤ i → i < s.length →
        readCell w2.buffer (BUFFER_HEIGHT - 1) (i - BUFFER_WIDTH) =
          some ⟨s.getD i 0, w.colour_code⟩) := by
  have hsplit : s.take BUFFER_WIDTH ++ s.drop BUFFER_WIDTH = s :=
    List.take_append_drop _ s
  have hlen_take : (s.take BUFFER_WIDTH).length = BUFFER_WIDTH := by
    rw [List.length_take]; omega
  have htake_getD : ∀ i, i < BUFFER_WIDTH →
      (s.take BUFFER_WIDTH).getD i 0 = s.getD i 0 := by
    intro i hi
    rw [List.getD_eq_getElem?_getD, List.getElem?_take, if_pos hi,
      ← List.getD_eq_getElem?_getD]
  have hdrop_getD : ∀ j, (s.drop BUFFER_WIDTH).getD j 0 = s.getD (BUFFER_WIDTH + j) 0 := by
    intro j
    rw [List.getD_eq_getElem?_getD, List.getElem?_drop, ← List.getD_eq_getElem?_getD]
  obtain ⟨w1, hw1, hwf1, hcur1, hcol1, hcells1, _⟩ :=
    write_string_printable_aux (s.take BUFFER_WIDTH) w hwf
      (fun b hb => hprint b (List.mem_of_mem_take hb)) (by rw [hlen_take]; omega)
  simp only [hcur, Nat.zero_add, hlen_take] at hcur1 hcells1
  have hdlen : (s.drop BUFFER_WIDTH).length = s.length - BUFFER_WIDTH :=
    List.length_drop _ _
  cases hd : s.drop BUFFER_WIDTH with
  | nil => rw [hd] at hdlen; simp at hdlen; omega
  | cons byte rest =>
    rw [hd] at hdlen
    simp only [List.length_cons] at hdlen
    have hbyte : 0x20 ≤ byte ∧ byte ≤ 0x7E :=
      hprint byte (List.mem_of_mem_drop (hd ▸ List.mem_cons_self _ _))
    have hpb : printable byte := Or.inl hbyte
    have hnb : byte ≠ 0x0A := by omega
    obtain ⟨wn, hwn, hwfn, hcurn, hcoln, hcopyn, _⟩ := new_line_spec w1 hwf1
    obtain ⟨wn2, hwn2, _, heq⟩ :=
      write_byte_wrap w1 hwf1 byte hnb (by omega)
    rw [hwn] at hwn2
    obtain rfl : wn = wn2 := by injection hwn2
    obtain ⟨w3, hw3, hwf3, hcur3, hcol3, hread3⟩ :=
      write_byte_spec wn hwfn byte hnb (by rw [hcurn]; decide)
    obtain ⟨w2, hw2, hwf2, hcur2, hcol2, hcells2, hkeep2⟩ :=
      write_string_printable_aux rest w3 hwf3
        (fun b hb =>
          hprint b (List.mem_of_mem_drop (hd ▸ List.mem_cons_of_mem _ hb)))
        (by rw [hcur3, hcurn]; omega)
    rw [hcur3, hcurn] at hcells2 hkeep2
    refine ⟨w2, ?_, ?_, ?_⟩
    · conv_lhs => rw [← hsplit]
      rw [write_string_append, hw1, Option.some_bind, hd]
      simp only [Writer.write_string, optFold, if_pos hpb, heq, hw3]
      exact hw2
    · intro i hi
      have hkeep := hkeep2 (BUFFER_HEIGHT - 2) i (fun h23 => absurd h23 (by decide))
      rw [hkeep, hread3, if_neg (fun hcon => absurd hcon.1 (by decide))]
      have e23 : BUFFER_HEIGHT - 2 + 1 = BUFFER_HEIGHT - 1 := by decide
      rw [hcopyn (BUFFER_HEIGHT - 2) i (by decide) hi, e23, hcells1 i hi,
        htake_getD i hi]
    · intro i hge hlt
      rcases Nat.eq_or_lt_of_le hge with heq80 | hgt80
      · have e0 : i - BUFFER_WIDTH = 0 := by omega
        have hkeep := hkeep2 (BUFFER_HEIGHT - 1) 0
          (fun _ => Or.inl (by omega))
        rw [e0, hkeep, hread3, if_pos ⟨rfl, hcurn.symm⟩, hcoln, hcol1]
        have hbyteD : s.getD i 0 = byte := by
          rw [← heq80, ← Nat.add_zero BUFFER_WIDTH, ← hdrop_getD 0, hd]
          simp
        rw [hbyteD]
      · have hj : i - BUFFER_WIDTH = 1 + (i - BUFFER_WIDTH - 1) := by omega
        have hcell := hcells2 (i - BUFFER_WIDTH - 1) (by omega)
        rw [hj, hcell, hcol3, hcoln, hcol1]
        have hrestD : rest.getD (i - BUFFER_WIDTH - 1) 0 = s.getD i 0 := by
          have e1 : s.getD i 0 = (s.drop BUFFER_WIDTH).getD (i - BUFFER_WIDTH) 0 := by
            rw [hdrop_getD]
            congr 1
            omega
          rw [e1, hd]
          have e2 : i - BUFFER_WIDTH = (i - BUFFER_WIDTH - 1) + 1 := by omega
          rw [e2, List.getD_cons_succ]
          simp
        rw [hrestD]

/-- C5 witness: 100 copies of the byte 0x61 wrap over the last two rows of
the blank writer. -/
theorem C5_witness :
    WF testWriter.buffer ∧
    BUFFER_WIDTH < (List.replicate 100 (0x61 : Nat)).length ∧
    ∃ w2, testWriter.write_string (List.replicate 100 0x61) = some w2 ∧
      (∀ i, i < BUFFER_WIDTH →
        readCell w2.buffer (BUFFER_HEIGHT - 2) i =
          some ⟨(List.replicate 100 (0x61 : Nat)).getD i 0, testWriter.colour_code⟩) ∧
      (∀ i, BUFFER_WIDTH ≤ i → i < (List.replicate 100 (0x61 : Nat)).length →
        readCell w2.buffer (BUFFER_HEIGHT - 1) (i - BUFFER_WIDTH) =
          some ⟨(List.replicate 100 (0x61 : Nat)).getD i 0, testWriter.colour_code⟩) :=
  ⟨by decide, by decide,
   C5_write_string_wraps (List.replicate 100 0x61) testWriter (by decide) rfl
     (by decide) (by decide) (by decide)⟩

theorem iterate_newlines_aux (n : Nat) : ∀ (w : Writer), WF w.buffer → 1 ≤ n →
    ∃ w2, iterate_newlines w n = some w2 ∧ WF w2.buffer ∧
      w2.cursor_column = 0 := by
  induction n with
  | zero => intro w _ h; omega
  | succ n ih =>
    intro w hb _
    obtain ⟨w1, hw1, hwf1, hcur1, _⟩ := new_line_spec w hb
    rcases Nat.eq_zero_or_pos n with h0 | hpos
    · subst h0
      refine ⟨w1, ?_, hwf1, hcur1⟩
      show (w.write_byte 0x0A).bind (fun w3 => iterate_newlines w3 0) = some w1
      rw [write_byte_newline, hw1, Option.some_bind]
      rfl
    · obtain ⟨w2, hw2, hwf2, hcur2⟩ := ih w1 hwf1 hpos
      refine ⟨w2, ?_, hwf2, hcur2⟩
      show (w.write_byte 0x0A).bind (fun w3 => iterate_newlines w3 n) = some w2
      rw [write_byte_newline, hw1, Option.some_bind, hw2]

/-- C6: issuing at least `height` consecutive line breaks never panics —
every grid access stays in bounds, so the run returns a result — and
leaves a writer whose every cell holds a defined character/attribute pair
and whose cursor column is 0. -/
theorem C6_many_newlines_safe (n : Nat) (w : Writer) (hwf : WF w.buffer)
    (hn : BUFFER_HEIGHT ≤ n) :
    ∃ w2, iterate_newlines w n = some w2 ∧ w2.cursor_column = 0 ∧
      ∀ r c, r < BUFFER_HEIGHT → c < BUFFER_WIDTH →
        ∃ ch, readCell w2.buffer r c = some ch := by
  obtain ⟨w2, hw2, hwf2, hcur2⟩ := iterate_newlines_aux n w hwf
    (Nat.le_trans (by decide) hn)
  exact ⟨w2, hw2, hcur2, fun r c hr hc => readCell_isSome hwf2 hr hc⟩

/-- C6 witness: 25 line breaks on the blank writer. -/
theorem C6_witness :
    WF testWriter.buffer ∧ BUFFER_HEIGHT ≤ 25 ∧
    ∃ w2, iterate_newlines testWriter 25 = some w2 ∧ w2.cursor_column = 0 ∧
      ∀ r c, r < BUFFER_HEIGHT → c < BUFFER_WIDTH →
        ∃ ch, readCell w2.buffer r c = some ch :=
  ⟨by decide, by decide, C6_many_newlines_safe 25 testWriter (by decide) (by decide)⟩

theorem applyOp_preserves (w : Writer) (op : WriterOp) (hb : WF w.buffer)
    (hc : w.cursor_column ≤ BUFFER_WIDTH) :
    ∃ w1, applyOp w op = some w1 ∧ WF w1.buffer ∧
      w1.cursor_column ≤ BUFFER_WIDTH := by
  cases op with
  | wbyte b => exact write_byte_total w hb b
  | wstr s =>
    obtain ⟨w1, hw1, hwf1, hcur1⟩ := write_string_total s w hb
    exact ⟨w1, hw1, hwf1, hcur1 hc⟩

theorem applyOps_preserves (ops : List WriterOp) : ∀ (w w2 : Writer), WF w.buffer →
    w.cursor_column ≤ BUFFER_WIDTH → applyOps w ops = some w2 →
    WF w2.buffer ∧ w2.cursor_column ≤ BUFFER_WIDTH := by
  induction ops with
  | nil =>
    intro w w2 hb hc h
    simp only [applyOps] at h
    obtain rfl : w = w2 := by injection h
    exact ⟨hb, hc⟩
  | cons op ops ih =>
    intro w w2 hb hc h
    obtain ⟨w1, hw1, hwf1, hcur1⟩ := applyOp_preserves w op hb hc
    simp only [applyOps, hw1, Option.some_bind] at h
    exact ih w1 w2 hwf1 hcur1 h

/-- C7: starting from any well-formed state whose cursor column is at most
the width, every sequence of `write_byte`/`write_string` operations keeps
the cursor column at most the width; and a cursor column equal to the
width forces a line break — resetting the cursor to 0 — before the next
character is stored. -/
theorem C7_cursor_invariant :
    (∀ (ops : List WriterOp) (w w2 : Writer), WF w.buffer →
      w.cursor_column ≤ BUFFER_WIDTH → applyOps w ops = some w2 →
      w2.cursor_column ≤ BUFFER_WIDTH) ∧
    (∀ (w : Writer) (byte : Nat), WF w.buffer → byte ≠ 0x0A →
      w.cursor_column = BUFFER_WIDTH →
      ∃ w1, w.new_line = some w1 ∧ w1.cursor_column = 0 ∧
        w.write_byte byte = w1.write_byte byte) :=
  ⟨fun ops w w2 hb hc h => (applyOps_preserves ops w w2 hb hc h).2,
   fun w byte hb hnb hc => write_byte_wrap w hb byte hnb (by omega)⟩

/-- C7 witness: a byte write followed by a string write on the blank
writer, and the forced line break on the full-cursor writer. -/
theorem C7_witness :
    (∃ w2, applyOps testWriter [.wbyte 0x41, .wstr [0x42, 0x43]] = some w2 ∧
      w2.cursor_column ≤ BUFFER_WIDTH) ∧
    (∃ w1, testWriterFull.new_line = some w1 ∧ w1.cursor_column = 0 ∧
      testWriterFull.write_byte 0x41 = w1.write_byte 0x41) := by
  constructor
  · obtain ⟨w1, hw1, hwf1, hcur1⟩ :=
      applyOp_preserves testWriter (.wbyte 0x41) (by decide) (by decide)
    obtain ⟨w2, hw2, hwf2, hcur2⟩ :=
      applyOp_preserves w1 (.wstr [0x42, 0x43]) hwf1 hcur1
    have h : applyOps testWriter [.wbyte 0x41, .wstr [0x42, 0x43]] = some w2 := by
      simp only [applyOps, hw1, Option.some_bind, hw2]
    exact ⟨w2, h,
      C7_cursor_invariant.1 [.wbyte 0x41, .wstr [0x42, 0x43]] testWriter w2
        (by decide) (by decide) h⟩
  · exact C7_cursor_invariant.2 testWriterFull 0x41 (by decide) (by decide) (by decide)

theorem run_checks_all_pass : ∀ (tests : List Bool), (∀ t ∈ tests, t = true) →
    ∀ idx, run_checks idx tests =
      (List.range' idx tests.length).map Event.run_check ++ [exit_qemu .Success] := by
  intro tests
  induction tests with
  | nil => intro _ idx; rfl
  | cons t ts ih =>
    intro hall idx
    have ht : t = true := hall t (by simp)
    subst ht
    simp only [run_checks, eq_self_iff_true, if_true, List.length_cons,
      List.range'_succ, List.map_cons, List.cons_append]
    rw [ih (fun t2 ht2 => hall t2 (by simp [ht2])) (idx + 1)]

theorem run_checks_first_fail : ∀ (passed : List Bool), (∀ t ∈ passed, t = true) →
    ∀ (rest : List Bool) (idx : Nat),
      run_checks idx (passed ++ false :: rest) =
        (List.range' idx (passed.length + 1)).map Event.run_check ++
          panic_handler_events := by
  intro passed
  induction passed with
  | nil =>
    intro _ rest idx
    simp only [List.nil_append, run_checks, Bool.false_eq_true, if_neg,
      List.length_nil, Nat.zero_add, List.range'_succ, List.range'_zero,
      List.map_cons, List.map_nil, List.cons_append, List.nil_append]
    rfl
  | cons t ts ih =>
    intro hall rest idx
    have ht : t = true := hall t (by simp)
    subst ht
    simp only [List.cons_append, run_checks, eq_self_iff_true, if_true,
      List.length_cons, List.range'_succ, List.map_cons, List.append_eq]
    rw [ih (fun t2 ht2 => hall t2 (by simp [ht2])) rest (idx + 1),
      List.range'_succ, List.map_cons, List.cons_append]

/-- C8: the harness runs the given checks in order; after all checks
complete it writes the success status to the exit port, and on a check
failure the panic path writes the failure status; the two 32-bit status
codes, success 0x10 and failure 0x11, are distinct, and every status write
goes to the dedicated exit port 0xF4. -/
theorem C8_test_runner_exit :
    QemuExitCode.toU32 .Success = 0x10 ∧ QemuExitCode.toU32 .Failed = 0x11 ∧
    QemuExitCode.toU32 .Success ≠ QemuExitCode.toU32 .Failed ∧
    (∀ c : QemuExitCode, exit_qemu c = .port_write 0xF4 c.toU32) ∧
    (∀ tests : List Bool, (∀ t ∈ tests, t = true) →
      test_runner tests =
        .serial (.runningTests tests.length) ::
          ((List.range' 0 tests.length).map Event.run_check ++
            [exit_qemu .Success])) ∧
    (∀ passed rest : List Bool, (∀ t ∈ passed, t = true) →
      test_runner (passed ++ false :: rest) =
        .serial (.runningTests (passed ++ false :: rest).length) ::
          ((List.range' 0 (passed.length + 1)).map Event.run_check ++
            panic_handler_events)) := by
  refine ⟨rfl, rfl, by decide, fun c => rfl, fun tests hall => ?_, fun p r hall => ?_⟩
  · simp only [test_runner]
    rw [run_checks_all_pass tests hall 0]
  · simp only [test_runner]
    rw [run_checks_first_fail p hall r 0]

/-- C8 witness: a two-check run where both pass, and a run whose second
check fails. -/
theorem C8_witness :
    (test_runner [true, true] =
      .serial (.runningTests 2) ::
        ((List.range' 0 2).map Event.run_check ++ [exit_qemu .Success])) ∧
    (test_runner ([true] ++ false :: []) =
      .serial (.runningTests ([true] ++ false :: []).length) ::
        ((List.range' 0 2).map Event.run_check ++ panic_handler_events)) :=
  ⟨C8_test_runner_exit.2.2.2.2.1 [true, true] (by decide),
   C8_test_runner_exit.2.2.2.2.2 [true] [] (by decide)⟩

/-- C9: the double-fault handler, once invoked, reports `[ok]` on the
serial channel, writes the success status to the exit port exactly once,
and ends in the non-returning `loop` — there is no further event after the
hang, so execution never resumes. -/
theorem C9_double_fault_handler_terminal :
    test_double_fault_handler_events =
      [.serial .ok, .port_write 0xF4 (QemuExitCode.toU32 .Success), .hang] ∧
    portWrites test_double_fault_handler_events = [exit_qemu .Success] ∧
    test_double_fault_handler_events.getLast? = some .hang :=
  ⟨rfl, rfl, rfl⟩

/-- C10: both the formatted-output path `_print` and the panic-reporting
path (which routes through `_print`) disable hardware interrupts before
taking the writer lock and re-enable them only after releasing it: in
every state either path visits, a held lock implies masked interrupts. -/
theorem C10_interrupt_masking :
    (∀ st ∈ statesFrom initSync print_actions,
      st.lock_held = true → st.interrupts_enabled = false) ∧
    (∀ st ∈ statesFrom initSync panic_vga_actions,
      st.lock_held = true → st.interrupts_enabled = false) := by
  decide

/-- C10 witness: the state holding the lock mid-write has interrupts
masked on both paths. -/
theorem C10_witness :
    ((⟨false, true⟩ : SyncState) ∈ statesFrom initSync print_actions ∧
      (⟨false, true⟩ : SyncState).interrupts_enabled = false) ∧
    ((⟨false, true⟩ : SyncState) ∈ statesFrom initSync panic_vga_actions ∧
      (⟨false, true⟩ : SyncState).interrupts_enabled = false) :=
  ⟨⟨by decide, C10_interrupt_masking.1 ⟨false, true⟩ (by decide) rfl⟩,
   ⟨by decide, C10_interrupt_masking.2 ⟨false, true⟩ (by decide) rfl⟩⟩

end RustOS
